import Mathlib

/-
Verification of the retry decorator
(ambari-common/.../resource_management/libraries/functions/decorator.py)
and of get_port
(ambari-server/.../stacks/HDP/2.0.6/hooks/before-ANY/scripts/params.py).

The retry decorator is, verbatim:

  def retry(times=3, sleep_time=1, backoff_factor=1, err_class=Exception):
    def decorator(function):
      def wrapper(*args, **kwargs):
        _times = times
        _sleep_time = sleep_time
        _backoff_factor = backoff_factor
        _err_class = err_class
        while _times > 1:
          _times -= 1
          _sleep_time *= _backoff_factor
          try:
            return function(*args, **kwargs)
          except _err_class, err:
            Logger.info("Will retry ... " % (_times, str(err), _sleep_time))
            time.sleep(_sleep_time)
        return function(*args, **kwargs)
      return wrapper
    return decorator

The embedding below models one call of `wrapper`: the wrapped function is a
possibly state-dependent operation (its behaviour may differ from one
invocation to the next, indexed by the number of prior invocations), each
invocation either returns a value or raises an exception with a class (a
numeric code) and a message, and the observable side effects (invocations,
Logger.info events, time.sleep calls) are collected in an event trace.
Exception matching (`except _err_class`) is modelled by a boolean predicate
on exception classes. `times` is a Python int, modelled by ℤ; `sleep_time`
and `backoff_factor` are exact Python numbers, modelled by ℚ.
The `while _times > 1` loop with the integer counter decremented once per
iteration runs at most `max(times - 1, 0)` iterations, which the embedding
makes explicit as structural fuel; the logged value `_times` at iteration
i (1-indexed) equals `times - i`, which at fuel value f+1 is f+1 when the
entry value of times is at least 1, and no iteration runs otherwise.
-/

namespace Ambari

/-- Outcome of one invocation of the wrapped function: either a returned
value, or a raised exception carrying its class (a numeric code standing
for the Python exception type) and its message (str(err)). -/
inductive Outcome (α : Type) : Type
  | ok (v : α) : Outcome α
  | err (kind : ℕ) (msg : String) : Outcome α
deriving DecidableEq

/-- Observable side effect of one wrapper call: an invocation of the wrapped
function, a Logger.info event (carrying the remaining attempt count, the
caught exception description str(err), and the computed sleep duration), or
a time.sleep call. -/
inductive Event : Type
  | invoke : Event
  | log (remaining : ℤ) (desc : String) (sleepTime : ℚ) : Event
  | sleep (duration : ℚ) : Event
deriving DecidableEq

/-- The four parameters of the retry decorator: `times` (total attempt
budget, a Python int), `sleep_time` (initial sleep time), `backoff_factor`
(multiplier applied to the sleep time once per loop iteration), and
`err_class` (the predicate deciding whether a raised exception class is
caught by the `except _err_class` clause). -/
structure Policy where
  times : ℤ
  sleep_time : ℚ
  backoff_factor : ℚ
  err_class : ℕ → Bool

/-- The `while _times > 1` loop of `wrapper`, followed by the final
unguarded call. `fuel` is the number of loop iterations still allowed
(`max(_times - 1, 0)`), `st` is `_sleep_time`, `calls` counts prior
invocations of the wrapped function. Per iteration the code decrements
`_times` and multiplies `_sleep_time` by the factor BEFORE calling the
function; on an exception matched by `err_class` it logs (the log happens
before the sleep) and sleeps, otherwise the exception propagates out of
the wrapper. When the loop budget is exhausted the function is called one
final time outside any try, so its outcome propagates unconditionally. -/
def runAux (op : ℕ → Outcome α) (ec : ℕ → Bool) (bf : ℚ) :
    ℕ → ℚ → ℕ → List Event × Except (ℕ × String) α
  | 0, _, calls =>
    match op calls with
    | .ok v => ([Event.invoke], Except.ok v)
    | .err k m => ([Event.invoke], Except.error (k, m))
  | fuel + 1, st, calls =>
    match op calls with
    | .ok v => ([Event.invoke], Except.ok v)
    | .err k m =>
      if ec k then
        let r := runAux op ec bf fuel (st * bf) (calls + 1)
        (Event.invoke :: Event.log ((fuel : ℤ) + 1) m (st * bf) ::
           Event.sleep (st * bf) :: r.1, r.2)
      else ([Event.invoke], Except.error (k, m))

/-- One call of the decorated function: copy the decorator parameters into
fresh local state and run the loop. The loop runs at most
`max(times - 1, 0)` iterations. -/
def wrapper (p : Policy) (op : ℕ → Outcome α) :
    List Event × Except (ℕ × String) α :=
  runAux op p.err_class p.backoff_factor (p.times - 1).toNat p.sleep_time 0

/-- View an invocation outcome as the result the caller of the wrapper
sees when that outcome is simply propagated. -/
def toExcept : Outcome α → Except (ℕ × String) α
  | .ok v => Except.ok v
  | .err k m => Except.error (k, m)

/-- Number of invocations of the wrapped function recorded in a trace. -/
def countInvoke (tr : List Event) : ℕ :=
  tr.countP fun e => match e with | .invoke => true | _ => false

/-- Number of Logger.info events recorded in a trace. -/
def countLog (tr : List Event) : ℕ :=
  tr.countP fun e => match e with | .log _ _ _ => true | _ => false

/-- The sequence of time.sleep durations recorded in a trace, in order. -/
def sleepsOf (tr : List Event) : List ℚ :=
  tr.filterMap fun e => match e with | .sleep d => some d | _ => none

/-- An operation that raises an `err_class`-matched exception at every
invocation. -/
def alwaysFails (ec : ℕ → Bool) (op : ℕ → Outcome α) : Prop :=
  ∀ n, ∃ k m, op n = Outcome.err k m ∧ ec k = true

theorem countInvoke_nil : countInvoke [] = 0 := rfl

theorem countInvoke_cons_invoke (tr : List Event) :
    countInvoke (Event.invoke :: tr) = countInvoke tr + 1 := by
  simp [countInvoke, List.countP_cons]

theorem countInvoke_cons_log (r : ℤ) (d : String) (s : ℚ) (tr : List Event) :
    countInvoke (Event.log r d s :: tr) = countInvoke tr := by
  simp [countInvoke, List.countP_cons]

theorem countInvoke_cons_sleep (s : ℚ) (tr : List Event) :
    countInvoke (Event.sleep s :: tr) = countInvoke tr := by
  simp [countInvoke, List.countP_cons]

theorem countLog_nil : countLog [] = 0 := rfl

theorem countLog_cons_invoke (tr : List Event) :
    countLog (Event.invoke :: tr) = countLog tr := by
  simp [countLog, List.countP_cons]

theorem countLog_cons_log (r : ℤ) (d : String) (s : ℚ) (tr : List Event) :
    countLog (Event.log r d s :: tr) = countLog tr + 1 := by
  simp [countLog, List.countP_cons]

theorem countLog_cons_sleep (s : ℚ) (tr : List Event) :
    countLog (Event.sleep s :: tr) = countLog tr := by
  simp [countLog, List.countP_cons]

theorem sleepsOf_nil : sleepsOf [] = [] := rfl

theorem sleepsOf_cons_invoke (tr : List Event) :
    sleepsOf (Event.invoke :: tr) = sleepsOf tr := by
  simp [sleepsOf]

theorem sleepsOf_cons_log (r : ℤ) (d : String) (s : ℚ) (tr : List Event) :
    sleepsOf (Event.log r d s :: tr) = sleepsOf tr := by
  simp [sleepsOf]

theorem sleepsOf_cons_sleep (s : ℚ) (tr : List Event) :
    sleepsOf (Event.sleep s :: tr) = s :: sleepsOf tr := by
  simp [sleepsOf]

/-- C6: with `times = 1` the loop `while _times > 1` is never entered, so
the operation executes exactly once, a success returns its result and a
failure (of any kind) propagates immediately, with no log events and no
sleeps (the trace is a single invocation). -/
theorem single_attempt_when_times_eq_one (s b : ℚ) (ec : ℕ → Bool)
    {α : Type} (op : ℕ → Outcome α) :
    (wrapper ⟨(1 : ℤ), s, b, ec⟩ op).1 = [Event.invoke] ∧
    (wrapper ⟨(1 : ℤ), s, b, ec⟩ op).2 = toExcept (op 0) := by
  cases h : op 0 <;> simp [wrapper, runAux, toExcept, h]

/-- C9: for every `times ≤ 1`, including 0 and negative values, the loop
guard `_times > 1` fails at once, so the operation still executes exactly
once (never zero times), with no log events and no sleeps, and its outcome
is returned or propagated unchanged. -/
theorem single_attempt_when_times_le_one (t : ℤ) (ht : t ≤ 1) (s b : ℚ)
    (ec : ℕ → Bool) {α : Type} (op : ℕ → Outcome α) :
    (wrapper ⟨t, s, b, ec⟩ op).1 = [Event.invoke] ∧
    (wrapper ⟨t, s, b, ec⟩ op).2 = toExcept (op 0) := by
  have hf : (t - 1).toNat = 0 := by omega
  cases h : op 0 <;> simp [wrapper, hf, runAux, toExcept, h]

theorem runAux_allFail_counts {α : Type} (op : ℕ → Outcome α) (ec : ℕ → Bool)
    (bf : ℚ) (h : alwaysFails ec op) :
    ∀ (fuel : ℕ) (st : ℚ) (calls : ℕ),
      countInvoke (runAux op ec bf fuel st calls).1 = fuel + 1 ∧
      countLog (runAux op ec bf fuel st calls).1 = fuel ∧
      sleepsOf (runAux op ec bf fuel st calls).1 =
        (List.range fuel).map (fun i => st * bf ^ (i + 1)) := by
  intro fuel
  induction fuel with
  | zero =>
    intro st calls
    obtain ⟨k, m, hk, _⟩ := h calls
    simp [runAux, hk, countInvoke, countLog, sleepsOf]
  | succ f ih =>
    intro st calls
    obtain ⟨k, m, hk, hec⟩ := h calls
    obtain ⟨ih1, ih2, ih3⟩ := ih (st * bf) (calls + 1)
    simp only [runAux, hk, hec, if_pos, countInvoke_cons_invoke,
      countInvoke_cons_log, countInvoke_cons_sleep, countLog_cons_invoke,
      countLog_cons_log, countLog_cons_sleep, sleepsOf_cons_invoke,
      sleepsOf_cons_log, sleepsOf_cons_sleep, ih1, ih2, ih3]
    refine ⟨trivial, trivial, ?_⟩
    rw [List.range_succ_eq_map, List.map_cons, List.map_map]
    congr 1
    · ring
    · refine List.map_congr_left ?_
      intro i _
      simp [pow_succ]
      ring

theorem runAux_allFail_result {α : Type} (op : ℕ → Outcome α) (ec : ℕ → Bool)
    (bf : ℚ) (h : alwaysFails ec op) :
    ∀ (fuel : ℕ) (st : ℚ) (calls : ℕ) (k : ℕ) (m : String),
      op (calls + fuel) = Outcome.err k m →
      (runAux op ec bf fuel st calls).2 = Except.error (k, m) := by
  intro fuel
  induction fuel with
  | zero =>
    intro st calls k m hlast
    rw [Nat.add_zero] at hlast
    simp [runAux, hlast]
  | succ f ih =>
    intro st calls k m hlast
    obtain ⟨k0, m0, hk, hec⟩ := h calls
    have hrec := ih (st * bf) (calls + 1) k m (by rw [← hlast]; ring_nf)
    simp [runAux, hk, hec, hrec]

/-- C1: with `times = N ≥ 1` and an operation whose every invocation raises
an `err_class`-matched exception, the wrapper invokes the operation exactly
N times, emits exactly N - 1 log events, and propagates the exception of
the final (N-th) attempt to the caller with its class and message
unchanged. -/
theorem all_fail_invocations_logs_and_propagation (N : ℕ) (hN : 1 ≤ N)
    (s b : ℚ) (ec : ℕ → Bool) {α : Type} (op : ℕ → Outcome α)
    (h : alwaysFails ec op) (k : ℕ) (m : String)
    (hlast : op (N - 1) = Outcome.err k m) :
    countInvoke (wrapper ⟨(N : ℤ), s, b, ec⟩ op).1 = N ∧
    countLog (wrapper ⟨(N : ℤ), s, b, ec⟩ op).1 = N - 1 ∧
    (wrapper ⟨(N : ℤ), s, b, ec⟩ op).2 = Except.error (k, m) := by
  have hf : ((N : ℤ) - 1).toNat = N - 1 := by omega
  obtain ⟨c1, c2, _⟩ := runAux_allFail_counts op ec b h (N - 1) s 0
  have hres := runAux_allFail_result op ec b h (N - 1) s 0 k m
    (by rw [Nat.zero_add]; exact hlast)
  refine ⟨?_, ?_, ?_⟩
  · rw [wrapper]; simp only [hf]; rw [c1]; omega
  · rw [wrapper]; simp only [hf]; exact c2
  · rw [wrapper]; simp only [hf]; exact hres

/-- Witness for C1 at `N = 2`, `op` always raising class 7 with message
"boom": two invocations, one log event, and the final failure propagates
with class and message intact. -/
theorem all_fail_invocations_logs_and_propagation_witness :
    countInvoke (wrapper ⟨((2 : ℕ) : ℤ), 1, 1, fun _ => true⟩
        (fun _ => Outcome.err 7 "boom" : ℕ → Outcome ℕ)).1 = 2 ∧
    countLog (wrapper ⟨((2 : ℕ) : ℤ), 1, 1, fun _ => true⟩
        (fun _ => Outcome.err 7 "boom" : ℕ → Outcome ℕ)).1 = 2 - 1 ∧
    (wrapper ⟨((2 : ℕ) : ℤ), 1, 1, fun _ => true⟩
        (fun _ => Outcome.err 7 "boom" : ℕ → Outcome ℕ)).2 =
      Except.error (7, "boom") :=
  all_fail_invocations_logs_and_propagation 2 (by decide) 1 1 (fun _ => true)
    (fun _ => Outcome.err 7 "boom") (fun _ => ⟨7, "boom", rfl, rfl⟩) 7 "boom" rfl

/-- C2: with an always retryably-failing operation and `times = N ≥ 1`, the
sleep durations are, in order, `sleep_time * backoff_factor ^ k` for the
k-th retry (1-indexed, k from 1 to N - 1): the factor is applied once per
retry BEFORE the corresponding sleep. At `sleep_time = 1`,
`backoff_factor = 2`, `times = 4` this is the sequence [2, 4, 8] (see the
witness). -/
theorem sleep_durations_all_fail (N : ℕ) (hN : 1 ≤ N) (s b : ℚ)
    (ec : ℕ → Bool) {α : Type} (op : ℕ → Outcome α) (h : alwaysFails ec op) :
    sleepsOf (wrapper ⟨(N : ℤ), s, b, ec⟩ op).1 =
      (List.range (N - 1)).map (fun i => s * b ^ (i + 1)) := by
  have hf : ((N : ℤ) - 1).toNat = N - 1 := by omega
  obtain ⟨_, _, c3⟩ := runAux_allFail_counts op ec b h (N - 1) s 0
  rw [wrapper]; simp only [hf]; exact c3

/-- Witness for C2 at `sleep_time = 1`, `backoff_factor = 2`, `times = 4`:
the sleep sequence is exactly [2, 4, 8]. -/
theorem sleep_durations_all_fail_witness :
    sleepsOf (wrapper ⟨((4 : ℕ) : ℤ), 1, 2, fun _ => true⟩
        (fun _ => Outcome.err 0 "e" : ℕ → Outcome ℕ)).1 = [2, 4, 8] := by
  have h := sleep_durations_all_fail 4 (by decide) 1 2 (fun _ => true)
    (fun _ => Outcome.err 0 "e" : ℕ → Outcome ℕ) (fun _ => ⟨0, "e", rfl, rfl⟩)
  rw [h]; norm_num [List.range_succ]

theorem runAux_first_err_unmatched {α : Type} (op : ℕ → Outcome α)
    (ec : ℕ → Bool) (bf : ℚ) {k : ℕ} {m : String} {calls : ℕ}
    (hk : op calls = Outcome.err k m) (hec : ec k = false) :
    ∀ (fuel : ℕ) (st : ℚ),
      runAux op ec bf fuel st calls = ([Event.invoke], Except.error (k, m)) := by
  intro fuel st
  cases fuel <;> simp [runAux, hk, hec]

/-- C3: when the first invocation raises an exception whose class is NOT
matched by `err_class`, the `except _err_class` clause does not catch it:
the wrapper performs exactly one invocation, emits no log event, sleeps
never, and the exception propagates to the caller with class and message
unchanged — for every policy, in particular whenever `times > 1`. -/
theorem unmatched_failure_propagates_immediately (p : Policy) {α : Type}
    (op : ℕ → Outcome α) (k : ℕ) (m : String)
    (h0 : op 0 = Outcome.err k m) (hec : p.err_class k = false) :
    (wrapper p op).1 = [Event.invoke] ∧
    countInvoke (wrapper p op).1 = 1 ∧
    countLog (wrapper p op).1 = 0 ∧
    sleepsOf (wrapper p op).1 = [] ∧
    (wrapper p op).2 = Except.error (k, m) := by
  have h := runAux_first_err_unmatched op p.err_class p.backoff_factor h0 hec
    (p.times - 1).toNat p.sleep_time
  rw [wrapper, h]
  refine ⟨rfl, ?_, ?_, rfl, rfl⟩ <;> rfl

/-- Witness for C3 with `times = 5` and an exception of class 0 while
`err_class` matches only class 3: a single invocation and immediate
propagation. -/
theorem unmatched_failure_propagates_immediately_witness :
    (wrapper ⟨(5 : ℤ), 1, 2, fun c => decide (c = 3)⟩
        (fun _ => Outcome.err 0 "bad" : ℕ → Outcome ℕ)).1 = [Event.invoke] ∧
    countInvoke (wrapper ⟨(5 : ℤ), 1, 2, fun c => decide (c = 3)⟩
        (fun _ => Outcome.err 0 "bad" : ℕ → Outcome ℕ)).1 = 1 ∧
    countLog (wrapper ⟨(5 : ℤ), 1, 2, fun c => decide (c = 3)⟩
        (fun _ => Outcome.err 0 "bad" : ℕ → Outcome ℕ)).1 = 0 ∧
    sleepsOf (wrapper ⟨(5 : ℤ), 1, 2, fun c => decide (c = 3)⟩
        (fun _ => Outcome.err 0 "bad" : ℕ → Outcome ℕ)).1 = [] ∧
    (wrapper ⟨(5 : ℤ), 1, 2, fun c => decide (c = 3)⟩
        (fun _ => Outcome.err 0 "bad" : ℕ → Outcome ℕ)).2 =
      Except.error (0, "bad") :=
  unmatched_failure_propagates_immediately ⟨(5 : ℤ), 1, 2, fun c => decide (c = 3)⟩
    (fun _ => Outcome.err 0 "bad") 0 "bad" rfl rfl

/-- C4 counterexample: the claim says the delay before the first retry
equals `sleep_time` for EVERY `backoff_factor`. At `times = 2`,
`sleep_time = 1`, `backoff_factor = 2`, with a retryably failing operation,
the first (and only) sleep lasts 2 seconds, not `sleep_time = 1`: the code
multiplies `_sleep_time` by the factor before the first sleep. -/
theorem first_sleep_counterexample :
    (sleepsOf (wrapper ⟨(2 : ℤ), 1, 2, fun _ => true⟩
        (fun _ => Outcome.err 0 "e" : ℕ → Outcome ℕ)).1).head? = some 2 ∧
    ¬ ((2 : ℚ) = 1) := by
  constructor
  · norm_num [wrapper, runAux, sleepsOf]
  · norm_num

/-- C4 as amended: for every policy with `times ≥ 2` whose first invocation
fails with a matched exception class, the delay slept before the first
retry equals `sleep_time * backoff_factor` (so it equals `sleep_time`
exactly when the factor is 1, e.g. at the default `backoff_factor = 1`). -/
theorem first_sleep_is_delay_times_factor (p : Policy) {α : Type}
    (op : ℕ → Outcome α) (k : ℕ) (m : String) (ht : 2 ≤ p.times)
    (h0 : op 0 = Outcome.err k m) (hec : p.err_class k = true) :
    (sleepsOf (wrapper p op).1).head? =
      some (p.sleep_time * p.backoff_factor) := by
  have hf : (p.times - 1).toNat = ((p.times - 1).toNat - 1) + 1 := by omega
  rw [wrapper, hf]
  simp [runAux, h0, hec, sleepsOf_cons_invoke, sleepsOf_cons_log,
    sleepsOf_cons_sleep]

/-- Witness for the amended C4 at `times = 3`, `sleep_time = 1`,
`backoff_factor = 5`: the first sleep lasts `1 * 5` seconds. -/
theorem first_sleep_is_delay_times_factor_witness :
    (sleepsOf (wrapper ⟨(3 : ℤ), 1, 5, fun _ => true⟩
        (fun _ => Outcome.err 0 "e" : ℕ → Outcome ℕ)).1).head? =
      some ((1 : ℚ) * 5) :=
  first_sleep_is_delay_times_factor ⟨(3 : ℤ), 1, 5, fun _ => true⟩
    (fun _ => Outcome.err 0 "e") 0 "e" (by decide) rfl rfl

theorem runAux_ok {α : Type} (op : ℕ → Outcome α) (ec : ℕ → Bool) (bf : ℚ)
    {v : α} {calls : ℕ} (hk : op calls = Outcome.ok v) :
    ∀ (fuel : ℕ) (st : ℚ),
      runAux op ec bf fuel st calls = ([Event.invoke], Except.ok v) := by
  intro fuel st
  cases fuel <;> simp [runAux, hk]

theorem runAux_fail_then_ok {α : Type} (op : ℕ → Outcome α) (ec : ℕ → Bool)
    (bf : ℚ) {v : α} :
    ∀ (j fuel : ℕ) (st : ℚ) (calls : ℕ), j ≤ fuel →
      (∀ i, i < j → ∃ k m, op (calls + i) = Outcome.err k m ∧ ec k = true) →
      op (calls + j) = Outcome.ok v →
      countInvoke (runAux op ec bf fuel st calls).1 = j + 1 ∧
      countLog (runAux op ec bf fuel st calls).1 = j ∧
      sleepsOf (runAux op ec bf fuel st calls).1 =
        (List.range j).map (fun i => st * bf ^ (i + 1)) ∧
      (runAux op ec bf fuel st calls).2 = Except.ok v := by
  intro j
  induction j with
  | zero =>
    intro fuel st calls _ _ hok
    rw [Nat.add_zero] at hok
    rw [runAux_ok op ec bf hok fuel st]
    exact ⟨rfl, rfl, rfl, rfl⟩
  | succ n ih =>
    intro fuel st calls hle hfail hok
    obtain ⟨f, rfl⟩ : ∃ f, fuel = f + 1 := ⟨fuel - 1, by omega⟩
    obtain ⟨k, m, hk, hec⟩ := hfail 0 (Nat.succ_pos n)
    rw [Nat.add_zero] at hk
    have hfail2 : ∀ i, i < n → ∃ k m,
        op (calls + 1 + i) = Outcome.err k m ∧ ec k = true := by
      intro i hi
      have := hfail (i + 1) (by omega)
      rwa [show calls + (i + 1) = calls + 1 + i by ring] at this
    have hok2 : op (calls + 1 + n) = Outcome.ok v := by
      rwa [show calls + 1 + n = calls + (n + 1) by ring]
    obtain ⟨c1, c2, c3, c4⟩ :=
      ih f (st * bf) (calls + 1) (by omega) hfail2 hok2
    simp only [runAux, hk, hec, if_pos, countInvoke_cons_invoke,
      countInvoke_cons_log, countInvoke_cons_sleep, countLog_cons_invoke,
      countLog_cons_log, countLog_cons_sleep, sleepsOf_cons_invoke,
      sleepsOf_cons_log, sleepsOf_cons_sleep, c1, c2, c3, c4]
    refine ⟨trivial, trivial, ?_, trivial⟩
    rw [List.range_succ_eq_map, List.map_cons, List.map_map]
    congr 1
    · ring
    · refine List.map_congr_left ?_
      intro i _
      simp [pow_succ]
      ring

/-- C5: with `times = 5` and an operation whose first two invocations fail
with matched exception classes and whose third invocation succeeds with
value v, the wrapper invokes the operation exactly 3 times, emits exactly
2 log events, sleeps exactly twice (no further attempts or delays), and
returns exactly v, unmodified. -/
theorem fail_twice_then_succeed (s b : ℚ) (ec : ℕ → Bool) {α : Type}
    (op : ℕ → Outcome α) (k1 k2 : ℕ) (m1 m2 : String) (v : α)
    (h0 : op 0 = Outcome.err k1 m1) (h1 : op 1 = Outcome.err k2 m2)
    (h2 : op 2 = Outcome.ok v) (e1 : ec k1 = true) (e2 : ec k2 = true) :
    countInvoke (wrapper ⟨(5 : ℤ), s, b, ec⟩ op).1 = 3 ∧
    countLog (wrapper ⟨(5 : ℤ), s, b, ec⟩ op).1 = 2 ∧
    sleepsOf (wrapper ⟨(5 : ℤ), s, b, ec⟩ op).1 = [s * b, s * b ^ 2] ∧
    (wrapper ⟨(5 : ℤ), s, b, ec⟩ op).2 = Except.ok v := by
  have hfail : ∀ i, i < 2 → ∃ k m,
      op (0 + i) = Outcome.err k m ∧ ec k = true := by
    intro i hi
    interval_cases i
    · exact ⟨k1, m1, h0, e1⟩
    · exact ⟨k2, m2, h1, e2⟩
  obtain ⟨c1, c2, c3, c4⟩ := runAux_fail_then_ok op ec b 2 4 s 0
    (by omega) hfail (by simpa using h2)
  have hf : ((5 : ℤ) - 1).toNat = 4 := by decide
  rw [wrapper]
  simp only [hf]
  refine ⟨c1, c2, ?_, c4⟩
  rw [c3]
  norm_num [List.range_succ]

/-- Witness for C5: the operation fails with classes 1 and 2 on its first
two invocations and returns 42 on the third; `times = 5`. -/
theorem fail_twice_then_succeed_witness :
    countInvoke (wrapper ⟨(5 : ℤ), 1, 3, fun _ => true⟩
        (fun n => if n = 0 then Outcome.err 1 "a"
          else if n = 1 then Outcome.err 2 "bb"
          else Outcome.ok 42 : ℕ → Outcome ℕ)).1 = 3 ∧
    countLog (wrapper ⟨(5 : ℤ), 1, 3, fun _ => true⟩
        (fun n => if n = 0 then Outcome.err 1 "a"
          else if n = 1 then Outcome.err 2 "bb"
          else Outcome.ok 42 : ℕ → Outcome ℕ)).1 = 2 ∧
    sleepsOf (wrapper ⟨(5 : ℤ), 1, 3, fun _ => true⟩
        (fun n => if n = 0 then Outcome.err 1 "a"
          else if n = 1 then Outcome.err 2 "bb"
          else Outcome.ok 42 : ℕ → Outcome ℕ)).1 = [1 * 3, 1 * 3 ^ 2] ∧
    (wrapper ⟨(5 : ℤ), 1, 3, fun _ => true⟩
        (fun n => if n = 0 then Outcome.err 1 "a"
          else if n = 1 then Outcome.err 2 "bb"
          else Outcome.ok 42 : ℕ → Outcome ℕ)).2 = Except.ok 42 :=
  fail_twice_then_succeed 1 3 (fun _ => true)
    (fun n => if n = 0 then Outcome.err 1 "a"
      else if n = 1 then Outcome.err 2 "bb" else Outcome.ok 42)
    1 2 "a" "bb" 42 rfl rfl rfl rfl rfl

/-- Trace built from a list of retry records (remaining attempts, caught
exception description, sleep duration): every retry contributes an
invocation, then its log event, then its sleep — the log strictly before
the corresponding sleep and carrying the same duration — and the trace
ends with the final invocation, after which no log or sleep occurs. -/
def blockTrace : List (ℤ × String × ℚ) → List Event
  | [] => [Event.invoke]
  | (r, d, s) :: bs =>
    Event.invoke :: Event.log r d s :: Event.sleep s :: blockTrace bs

/-- Description of the exception raised by an invocation outcome
(str(err)); the empty string for a successful outcome, which never
appears in a log event. -/
def msgOf {α : Type} : Outcome α → String
  | .ok _ => ""
  | .err _ m => m

theorem runAux_trace_shape {α : Type} (op : ℕ → Outcome α) (ec : ℕ → Bool)
    (bf : ℚ) :
    ∀ (fuel : ℕ) (st : ℚ) (calls : ℕ), ∃ bs : List (ℤ × String × ℚ),
      (runAux op ec bf fuel st calls).1 = blockTrace bs ∧
      ∀ i (h : i < bs.length), bs.get ⟨i, h⟩ =
        ((fuel : ℤ) - i, msgOf (op (calls + i)), st * bf ^ (i + 1)) := by
  intro fuel
  induction fuel with
  | zero =>
    intro st calls
    refine ⟨[], ?_, ?_⟩
    · cases hk : op calls <;> simp [runAux, hk, blockTrace]
    · intro i h
      simp at h
  | succ f ih =>
    intro st calls
    cases hk : op calls with
    | ok v =>
      refine ⟨[], ?_, ?_⟩
      · simp [runAux, hk, blockTrace]
      · intro i h
        simp at h
    | err k m =>
      cases hec : ec k with
      | false =>
        refine ⟨[], ?_, ?_⟩
        · simp [runAux, hk, hec, blockTrace]
        · intro i h
          simp at h
      | true =>
        obtain ⟨bs, hb1, hb2⟩ := ih (st * bf) (calls + 1)
        refine ⟨((f : ℤ) + 1, m, st * bf) :: bs, ?_, ?_⟩
        · simp [runAux, hk, hec, blockTrace, hb1]
        · intro i h
          cases i with
          | zero =>
            simp [List.get, hk, msgOf]
          | succ i =>
            have hlt : i < bs.length := by
              simpa using h
            have := hb2 i hlt
            simp only [List.get_cons_succ, this]
            refine Prod.ext ?_ (Prod.ext ?_ ?_)
            · push_cast
              ring
            · simp only []
              rw [show calls + 1 + i = calls + (i + 1) by ring]
            · simp only []
              rw [pow_succ, pow_succ]
              ring

/-- C7: in every execution, the trace is a sequence of retry blocks
followed by the final invocation: each retry contributes exactly one log
event, recorded strictly before its sleep and carrying the same duration;
the i-th retry (0-indexed) logs `times - 1 - i` attempts remaining (the
value of the decremented `_times` counter, here `max(times - 1, 0) - i`),
the description of the exception caught on the (i+1)-th invocation, and
the computed sleep duration `sleep_time * backoff_factor ^ (i + 1)`. No
log event follows the final invocation, so none is emitted on a successful
attempt or on the final-attempt failure. -/
theorem one_log_per_retry_logged_before_sleep (p : Policy) {α : Type}
    (op : ℕ → Outcome α) :
    ∃ bs : List (ℤ × String × ℚ),
      (wrapper p op).1 = blockTrace bs ∧
      ∀ i (h : i < bs.length), bs.get ⟨i, h⟩ =
        (((p.times - 1).toNat : ℤ) - i, msgOf (op i),
          p.sleep_time * p.backoff_factor ^ (i + 1)) := by
  obtain ⟨bs, hb1, hb2⟩ := runAux_trace_shape op p.err_class p.backoff_factor
    (p.times - 1).toNat p.sleep_time 0
  refine ⟨bs, hb1, ?_⟩
  intro i h
  simpa using hb2 i h

/-- Witness for C7 at `times = 3` with an always-failing operation: the
trace decomposes into retry blocks, each log preceding its sleep. -/
theorem one_log_per_retry_logged_before_sleep_witness :
    ∃ bs : List (ℤ × String × ℚ),
      (wrapper ⟨(3 : ℤ), 1, 2, fun _ => true⟩
        (fun _ => Outcome.err 0 "e" : ℕ → Outcome ℕ)).1 = blockTrace bs ∧
      ∀ i (h : i < bs.length), bs.get ⟨i, h⟩ =
        ((((3 : ℤ) - 1).toNat : ℤ) - i,
          msgOf (Outcome.err 0 "e" : Outcome ℕ), 1 * 2 ^ (i + 1)) :=
  one_log_per_retry_logged_before_sleep ⟨(3 : ℤ), 1, 2, fun _ => true⟩
    (fun _ => Outcome.err 0 "e")

/-- One call of the decorated function, viewed together with the decorator
closure state it leaves behind: the wrapper body copies the closure
variables `times`, `sleep_time`, `backoff_factor`, `err_class` into fresh
local variables `_times`, `_sleep_time`, `_backoff_factor`, `_err_class`
and mutates only those locals, so the closure state after the call is the
unchanged policy. -/
def wrapperCall (p : Policy) {α : Type} (op : ℕ → Outcome α) :
    (List Event × Except (ℕ × String) α) × Policy :=
  (wrapper p op, p)

/-- C8: two successive calls of the decorated function with the same policy
are independent: the first call leaves the policy unchanged, the second
call therefore runs against the original policy, and each call produces
exactly the trace and result it would produce as the only invocation — in
particular the attempt counts agree with those of isolated runs, so no
state (remaining attempts, accumulated delay) leaks between invocations. -/
theorem policy_reuse_independent (p : Policy) {α β : Type}
    (op1 : ℕ → Outcome α) (op2 : ℕ → Outcome β) :
    (wrapperCall p op1).1 = wrapper p op1 ∧
    (wrapperCall p op1).2 = p ∧
    (wrapperCall (wrapperCall p op1).2 op2).1 = wrapper p op2 ∧
    (wrapperCall (wrapperCall p op1).2 op2).2 = p ∧
    countInvoke (wrapperCall p op1).1.1 = countInvoke (wrapper p op1).1 ∧
    countInvoke (wrapperCall (wrapperCall p op1).2 op2).1.1 =
      countInvoke (wrapper p op2).1 :=
  ⟨rfl, rfl, rfl, rfl, rfl, rfl⟩

/-- Witness for C9 at the concrete input `times = -3`: one invocation, and
the failure of the single attempt propagates unchanged. -/
theorem single_attempt_when_times_le_one_witness :
    (wrapper ⟨(-3 : ℤ), 1, 2, fun _ => true⟩
        (fun _ => Outcome.err 7 "boom" : ℕ → Outcome ℕ)).1 = [Event.invoke] ∧
    (wrapper ⟨(-3 : ℤ), 1, 2, fun _ => true⟩
        (fun _ => Outcome.err 7 "boom" : ℕ → Outcome ℕ)).2 =
      toExcept (Outcome.err 7 "boom") :=
  single_attempt_when_times_le_one (-3) (by decide) 1 2 (fun _ => true)
    (fun _ => Outcome.err 7 "boom")

/-
get_port, from params.py:

  def get_port(address):
    if address is None:
      return None
    m = re.search(r'(?:http(?:s)?://)?([\w\d.]*):(\d\x7b1,5\x7d)', address)
    if m is not None:
      return int(m.group(2))
    else:
      return None

A Python str is modelled as its list of characters. re.search scans the
start positions of the string from the left and, at each position, matches
the pattern with leftmost-greedy backtracking: the optional scheme group
tries "https://", then "http://", then nothing; the host class [\w\d.]
(ASCII \w = letter, digit or underscore, plus the dot) is starred, and
since ':' is not in the class the star can only stop at the end of the
maximal run; the port group then takes greedily 1 to 5 digits. int() on
the matched digit group is positional base-10 evaluation.
-/

/-- Characters matched by ASCII `\w`: letters, digits, underscore. -/
def wordChar (c : Char) : Bool :=
  c.isAlpha || c.isDigit || c = '_'

/-- Characters matched by the host class `[\w\d.]`. -/
def hostChar (c : Char) : Bool :=
  wordChar c || c = '.'

/-- Base-10 value of a digit string with accumulator, as computed by
Python int() on the matched group. -/
def digitsVal : List Char → ℕ → ℕ
  | [], acc => acc
  | c :: cs, acc => digitsVal cs (acc * 10 + (c.toNat - 48))

/-- Match `([\w\d.]*):(\d\x7b1,5\x7d)` at the start of `s` and return the
value of the digit group: skip the maximal run of host characters (the
only stop the starred class admits before a ':'), require a ':', then take
greedily one to five digits. -/
def matchCore (s : List Char) : Option ℕ :=
  match s.dropWhile hostChar with
  | ':' :: t =>
    let ds := (t.takeWhile Char.isDigit).take 5
    if ds.isEmpty then none else some (digitsVal ds 0)
  | _ => none

/-- The scheme alternatives of `(?:http(?:s)?://)?` in backtracking order:
"https://" is tried before "http://" (the inner `(s)?` is greedy); if the
rest of the pattern fails after a matched scheme, matching falls back to
the empty alternative, handled in `matchAt`. -/
def viaScheme (s : List Char) : Option ℕ :=
  match s with
  | 'h' :: 't' :: 't' :: 'p' :: 's' :: ':' :: '/' :: '/' :: r => matchCore r
  | 'h' :: 't' :: 't' :: 'p' :: ':' :: '/' :: '/' :: r => matchCore r
  | _ => none

/-- Match the full pattern at the start of `s`: with a scheme if possible,
otherwise without (the optional group is greedy, so the scheme variants
are tried first). -/
def matchAt (s : List Char) : Option ℕ :=
  match viaScheme s with
  | some n => some n
  | none => matchCore s

/-- re.search: try the pattern at every start position from the left and
return the first (leftmost) match. -/
def reSearch : List Char → Option ℕ
  | [] => matchAt []
  | c :: t =>
    match matchAt (c :: t) with
    | some n => some n
    | none => reSearch t

/-- get_port: None for a None address, otherwise the port digits of the
leftmost host:port occurrence as a Python int, or None when the pattern
does not occur. -/
def get_port (address : Option String) : Option ℤ :=
  match address with
  | none => none
  | some a => Option.map (fun n => (n : ℤ)) (reSearch a.toList)

theorem digitsVal_lt : ∀ (ds : List Char) (acc : ℕ),
    (∀ c ∈ ds, c.isDigit = true) →
    digitsVal ds acc < (acc + 1) * 10 ^ ds.length := by
  intro ds
  induction ds with
  | nil =>
    intro acc _
    simp [digitsVal]
  | cons c cs ih =>
    intro acc hall
    have hc : c.toNat - 48 ≤ 9 := by
      have h := hall c (List.mem_cons_self c cs)
      simp [Char.isDigit] at h
      have h2 : c.toNat ≤ 57 := h.2
      omega
    have h2 := ih (acc * 10 + (c.toNat - 48))
      (fun d hd => hall d (List.mem_cons_of_mem c hd))
    have h3 : acc * 10 + (c.toNat - 48) + 1 ≤ (acc + 1) * 10 := by omega
    calc digitsVal (c :: cs) acc
        = digitsVal cs (acc * 10 + (c.toNat - 48)) := rfl
      _ < (acc * 10 + (c.toNat - 48) + 1) * 10 ^ cs.length := h2
      _ ≤ ((acc + 1) * 10) * 10 ^ cs.length := Nat.mul_le_mul_right _ h3
      _ = (acc + 1) * 10 ^ (c :: cs).length := by
          simp [List.length_cons]
          ring

theorem matchCore_lt (s : List Char) (n : ℕ) (h : matchCore s = some n) :
    n < 100000 := by
  unfold matchCore at h
  split at h
  · rename_i t heq
    set ds := (t.takeWhile Char.isDigit).take 5 with hds
    by_cases he : ds.isEmpty
    · simp [he] at h
    · simp [he] at h
      have hdig : ∀ c ∈ ds, c.isDigit = true := by
        intro c hcmem
        have h1 : c ∈ t.takeWhile Char.isDigit := List.mem_of_mem_take hcmem
        exact List.mem_takeWhile_imp h1
      have hlen : ds.length ≤ 5 := by
        rw [hds, List.length_take]
        exact min_le_left _ _
      have := digitsVal_lt ds 0 hdig
      have hpow : 10 ^ ds.length ≤ 10 ^ 5 :=
        Nat.pow_le_pow_right (by omega) hlen
      omega
  · exact absurd h (by simp)

theorem viaScheme_lt (s : List Char) (n : ℕ) (h : viaScheme s = some n) :
    n < 100000 := by
  unfold viaScheme at h
  split at h
  · exact matchCore_lt _ _ h
  · exact matchCore_lt _ _ h
  · exact absurd h (by simp)

theorem matchAt_lt (s : List Char) (n : ℕ) (h : matchAt s = some n) :
    n < 100000 := by
  unfold matchAt at h
  split at h
  · rename_i m hm
    cases h
    exact viaScheme_lt s _ hm
  · exact matchCore_lt _ _ h

theorem reSearch_lt : ∀ (s : List Char) (n : ℕ), reSearch s = some n →
    n < 100000 := by
  intro s
  induction s with
  | nil =>
    intro n h
    exact matchAt_lt [] n h
  | cons c t ih =>
    intro n h
    unfold reSearch at h
    split at h
    · rename_i m hm
      cases h
      exact matchAt_lt _ _ hm
    · exact ih n h

/-- C10: get_port returns None when the address is None, and on every
string address it returns either None (no host:port occurrence — e.g. on
"no port here") or the 1-to-5 matched port digits of the leftmost
occurrence as a non-negative integer below 100000 (e.g. 1019 on
"0.0.0.0:1019", the docstring example). -/
theorem get_port_none_or_below_100000 :
    get_port none = none ∧
    get_port (some "no port here") = none ∧
    get_port (some "0.0.0.0:1019") = some 1019 ∧
    ∀ s : String, get_port (some s) = none ∨
      ∃ n : ℤ, get_port (some s) = some n ∧ 0 ≤ n ∧ n < 100000 := by
  refine ⟨rfl, by decide, by decide, ?_⟩
  intro s
  cases hr : reSearch s.toList with
  | none =>
    left
    have hr2 : reSearch s.data = none := hr
    simp [get_port, hr2]
  | some n =>
    right
    have hr2 : reSearch s.data = some n := hr
    refine ⟨(n : ℤ), by simp [get_port, hr2], by positivity, ?_⟩
    have := reSearch_lt s.toList n hr
    omega

end Ambari
